import Mathlib

/-!
Shallow embedding of the test-model reconciliation core of
`playwright-vscode` (`testModel.ts`): the `TestFile` entry store, the
`TestProject` registry and the `TestModel` reconciler with its entry
points `listFiles`, `listTests` (`_updateProjects`),
`updateFromRunningProjects`, `workspaceChanged` and
`setProjectEnabled`.

JavaScript `Map`s (insertion ordered, unique keys) are embedded as
association lists `List (String × α)` with JS-`Map` operations `mget`,
`mset`, `mdel`; JS `Set`s of strings are embedded as duplicate-free
lists built with `setAdd`.  Mutable object references become explicit
state passing; the `model`/`project` back references of the source are
dropped in favour of keys, and asynchronous collaborator calls
(`playwrightTest.listFiles` / `listTests`, `resolveSourceMap`) are
passed in as explicit response values / response functions.  Each
operation additionally returns the number of `_didUpdate.fire()` calls
it performs, and `workspaceChanged` records which collaborator passes
it triggered.
-/

/-- A suite/case node's test case leaf; its payload is opaque to the
reconciler, a title stands in for it. -/
structure TestCase where
  title : String
deriving DecidableEq

/-- A reporter suite node.  The reconciler reads `project()!.name` on
project-level suites, `location!.file` on file-level suites, the child
`suites` and `tests` lists, and `allTests()`; those are the fields
kept here. -/
inductive Suite where
  | mk (projectName : String) (locationFile : String)
       (suites : List Suite) (tests : List TestCase)

/-- `suite.project()!.name` of the source. -/
def Suite.projectName : Suite → String
  | .mk n _ _ _ => n

/-- `suite.location!.file` of the source. -/
def Suite.locationFile : Suite → String
  | .mk _ f _ _ => f

/-- The `suites` children of a suite. -/
def Suite.suites : Suite → List Suite
  | .mk _ _ s _ => s

/-- The direct `tests` of a suite. -/
def Suite.tests : Suite → List TestCase
  | .mk _ _ _ t => t

mutual
/-- `suite.allTests()`: all test cases in the subtree. -/
def Suite.allTests : Suite → List TestCase
  | .mk _ _ suites tests => suitesAllTests suites ++ tests

/-- All test cases of a list of suites. -/
def suitesAllTests : List Suite → List TestCase
  | [] => []
  | s :: rest => s.allTests ++ suitesAllTests rest
end

/-- `TestEntry = reporterTypes.TestCase | reporterTypes.Suite`. -/
inductive TestEntry where
  | suiteEntry : Suite → TestEntry
  | caseEntry : TestCase → TestEntry

/-- `[...fileSuite.suites, ...fileSuite.tests]`, the entry list stored
into a `TestFile`. -/
def entriesOf (s : Suite) : List TestEntry :=
  s.suites.map TestEntry.suiteEntry ++ s.tests.map TestEntry.caseEntry

/-- `reporterTypes.TestError`; only carried around, never inspected. -/
structure TestError where
  message : Option String
deriving DecidableEq

/-- The `TestConfig` record owned by the model.  `version` is opaque
data to the reconciler (never computed with), embedded as `Nat`. -/
structure TestConfig where
  workspaceFolder : String
  configFile : String
  cli : String
  version : Nat
  testIdAttributeName : Option String

/-- `class TestFile`: per-file entry store.  The `project` back
reference of the source is dropped (files live inside their project's
map); `file` is the path, `entries` is `_entries`
(`undefined` embedded as `none`), `revision` is `_revision`. -/
structure TestFile where
  file : String
  entries : Option (List TestEntry)
  revision : Nat

/-- `new TestFile(project, file)`: `_entries` undefined, `_revision`
0. -/
def TestFile.new (file : String) : TestFile :=
  { file := file, entries := none, revision := 0 }

/-- `setEntries(entries)`: `++this._revision; this._entries = entries;`. -/
def TestFile.setEntries (f : TestFile) (entries : List TestEntry) : TestFile :=
  { f with revision := f.revision + 1, entries := some entries }

/-- `type TestProject`; the `model` back reference is dropped. -/
structure TestProject where
  name : String
  testDir : String
  files : List (String × TestFile)
  isEnabled : Bool

/-- The `TestModel` state the claims quantify over: the project map
and the configuration record. -/
structure TestModel where
  config : TestConfig
  projects : List (String × TestProject)

/-- `Map.prototype.get`. -/
def mget {α : Type} : List (String × α) → String → Option α
  | [], _ => none
  | (k', v) :: rest, k => if k' = k then some v else mget rest k

/-- `Map.prototype.has`. -/
def mcontains {α : Type} (ps : List (String × α)) (k : String) : Bool :=
  (mget ps k).isSome

/-- Replace the value at an existing key, keeping insertion order. -/
def msetReplace {α : Type} : List (String × α) → String → α → List (String × α)
  | [], _, _ => []
  | (k', v') :: rest, k, v =>
    if k' = k then (k, v) :: msetReplace rest k v else (k', v') :: msetReplace rest k v

/-- `Map.prototype.set`: replace in place when the key exists,
append otherwise. -/
def mset {α : Type} (ps : List (String × α)) (k : String) (v : α) : List (String × α) :=
  if mcontains ps k then msetReplace ps k v else ps ++ [(k, v)]

/-- `Map.prototype.delete`. -/
def mdel {α : Type} : List (String × α) → String → List (String × α)
  | [], _ => []
  | (k', v') :: rest, k =>
    if k' = k then mdel rest k else (k', v') :: mdel rest k

/-- Rebuild a map by transforming each value in place (the embedding
of a `for (const [k, v] of map)` loop that updates every value). -/
def mmap {α β : Type} (g : String → α → β) : List (String × α) → List (String × β)
  | [] => []
  | (k, v) :: rest => (k, g k v) :: mmap g rest

/-- `Set.prototype.add`: append unless already present. -/
def setAdd (l : List String) (x : String) : List String :=
  if l.contains x then l else l ++ [x]

/-- Build a JS `Set` (duplicate-free, insertion ordered) out of a
list, as `new Set(list)` does. -/
def dedupAux (acc : List String) : List String → List String
  | [] => acc
  | x :: rest => dedupAux (setAdd acc x) rest

/-- `new Set(list)` as a duplicate-free list. -/
def dedupList (l : List String) : List String :=
  dedupAux [] l

/-- The file stored at path `x` of project `pname`, if any. -/
def fileAt (m : TestModel) (pname x : String) : Option TestFile :=
  (mget m.projects pname).bind fun p => mget p.files x

section MapLemmas

variable {α : Type}

theorem mget_msetReplace_self {ps : List (String × α)} {k : String} {v : α}
    (h : mcontains ps k = true) : mget (msetReplace ps k v) k = some v := by
  induction ps with
  | nil => simp [mcontains, mget] at h
  | cons e rest ih =>
    obtain ⟨k', v'⟩ := e
    by_cases hk : k' = k
    · simp [msetReplace, hk, mget]
    · simp [msetReplace, hk, mget] at h ⊢
      exact ih (by simpa [mcontains, mget, hk] using h)

theorem mget_msetReplace_ne {ps : List (String × α)} {k q : String} {v : α}
    (h : q ≠ k) : mget (msetReplace ps k v) q = mget ps q := by
  induction ps with
  | nil => simp [msetReplace]
  | cons e rest ih =>
    obtain ⟨k', v'⟩ := e
    by_cases hk : k' = k
    · simp [msetReplace, hk, mget, Ne.symm h, ih]
    · simp [msetReplace, hk, mget]
      by_cases hq : k' = q
      · simp [hq]
      · simp [hq, ih]

theorem mget_append {ps qs : List (String × α)} {k : String} :
    mget (ps ++ qs) k = ((mget ps k).or (mget qs k)) := by
  induction ps with
  | nil => simp [mget]
  | cons e rest ih =>
    obtain ⟨k', v'⟩ := e
    by_cases hk : k' = k
    · simp [mget, hk]
    · simp [mget, hk, ih]

theorem mget_mset_self {ps : List (String × α)} {k : String} {v : α} :
    mget (mset ps k v) k = some v := by
  unfold mset
  by_cases h : mcontains ps k = true
  · simp [h, mget_msetReplace_self h]
  · have h' : mget ps k = none :=
      Option.not_isSome_iff_eq_none.mp (by simpa [mcontains] using h)
    simp [h, mget_append, h', mget]

theorem mget_mset_ne {ps : List (String × α)} {k q : String} {v : α}
    (h : q ≠ k) : mget (mset ps k v) q = mget ps q := by
  unfold mset
  by_cases hc : mcontains ps k = true
  · simp [hc, mget_msetReplace_ne h]
  · rw [if_neg hc, mget_append]
    simp [mget, Ne.symm h]

theorem mget_mdel_self {ps : List (String × α)} {k : String} :
    mget (mdel ps k) k = none := by
  induction ps with
  | nil => simp [mdel, mget]
  | cons e rest ih =>
    obtain ⟨k', v'⟩ := e
    by_cases hk : k' = k
    · simp [mdel, hk, ih]
    · simp [mdel, hk, mget, ih]

theorem mget_mdel_ne {ps : List (String × α)} {k q : String}
    (h : q ≠ k) : mget (mdel ps k) q = mget ps q := by
  induction ps with
  | nil => simp [mdel]
  | cons e rest ih =>
    obtain ⟨k', v'⟩ := e
    by_cases hk : k' = k
    · simp [mdel, hk, mget, ih, Ne.symm h]
    · by_cases hq : k' = q
      · simp [mdel, hk, hq, mget, h]
      · simp [mdel, hk, hq, mget, ih]

theorem mget_mmap {β : Type} {g : String → α → β} {ps : List (String × α)} {k : String} :
    mget (mmap g ps) k = (mget ps k).map (g k) := by
  induction ps with
  | nil => simp [mmap, mget]
  | cons e rest ih =>
    obtain ⟨k', v'⟩ := e
    by_cases hk : k' = k
    · simp [mmap, mget, hk]
    · simp [mmap, mget, hk, ih]

theorem mcontains_mset {ps : List (String × α)} {k q : String} {v : α}
    (h : mcontains ps k = true) :
    mcontains (mset ps k v) q = mcontains ps q := by
  by_cases hq : q = k
  · subst hq
    have h' : (mget ps q).isSome = true := by simpa [mcontains] using h
    simp [mcontains, mget_mset_self, h']
  · simp [mcontains, mget_mset_ne hq]

theorem contains_iff_mem {l : List String} {a : String} :
    l.contains a = true ↔ a ∈ l := by
  induction l with
  | nil => simp
  | cons x rest ih =>
    simp only [List.contains_cons, Bool.or_eq_true, beq_iff_eq, ih, List.mem_cons]

theorem mem_setAdd {l : List String} {x y : String} :
    x ∈ setAdd l y ↔ x ∈ l ∨ x = y := by
  unfold setAdd
  by_cases hc : l.contains y = true
  · have hy : y ∈ l := contains_iff_mem.mp hc
    rw [if_pos hc]
    constructor
    · exact Or.inl
    · rintro (h | rfl)
      · exact h
      · exact hy
  · rw [if_neg hc]
    simp [List.mem_append]

theorem nodup_setAdd {l : List String} {y : String} (h : l.Nodup) :
    (setAdd l y).Nodup := by
  unfold setAdd
  by_cases hc : l.contains y = true
  · rw [if_pos hc]; exact h
  · rw [if_neg hc]
    have hy : y ∉ l := fun hm => hc (contains_iff_mem.mpr hm)
    exact h.append (List.nodup_singleton y)
      (fun a ha hay => hy ((List.mem_singleton.mp hay) ▸ ha))

theorem mem_dedupAux {acc l : List String} {x : String} :
    x ∈ dedupAux acc l ↔ x ∈ acc ∨ x ∈ l := by
  induction l generalizing acc with
  | nil => simp [dedupAux]
  | cons y rest ih =>
    simp [dedupAux, ih, mem_setAdd]
    tauto

theorem nodup_dedupAux {acc l : List String} (h : acc.Nodup) :
    (dedupAux acc l).Nodup := by
  induction l generalizing acc with
  | nil => simpa [dedupAux]
  | cons y rest ih => exact ih (nodup_setAdd h)

theorem mem_dedupList {l : List String} {x : String} :
    x ∈ dedupList l ↔ x ∈ l := by
  simp [dedupList, mem_dedupAux]

theorem nodup_dedupList {l : List String} : (dedupList l).Nodup :=
  nodup_dedupAux List.nodup_nil

end MapLemmas

/-- `ProjectConfigWithFiles` as consumed by `listFiles`
(`{ name, testDir, use?: { testIdAttribute? }, files }`). -/
structure ProjectConfigWithFiles where
  name : String
  testDir : String
  testIdAttribute : Option String
  files : List String

/-- The discovery collaborator's `listFiles` report
(`{ error?, projects }`). -/
structure ListFilesReport where
  error : Option TestError
  projects : List ProjectConfigWithFiles

/-- Concatenation of `resolve` over a file list: the
`files.push(...await resolveSourceMap(file, ...))` loop.
`resolveSourceMap` itself lives outside this repository slice and is
passed in as the abstract resolution function `resolve`. -/
def flattenResolve (resolve : String → List String) : List String → List String
  | [] => []
  | f :: rest => resolve f ++ flattenResolve resolve rest

/-- Replace a reported project's files by their source-map
resolutions (`project.files = files`). -/
def resolveProject (resolve : String → List String) (r : ProjectConfigWithFiles) :
    ProjectConfigWithFiles :=
  { r with files := flattenResolve resolve r.files }

/-- `_createProject(projectReport)` before its file reconciliation:
name and testDir from the report, an empty file map, enabled by
default. -/
def freshProject (r : ProjectConfigWithFiles) : TestProject :=
  { name := r.name, testDir := r.testDir, files := [], isEnabled := true }

/-- The file-creation loop of `_updateProject`: for every reported
file, create a `TestFile` if absent. -/
def addReportedFiles : List String → List (String × TestFile) → List (String × TestFile)
  | [], fs => fs
  | f :: rest, fs =>
    addReportedFiles rest (if mcontains fs f then fs else mset fs f (TestFile.new f))

/-- The deletion loop of `_updateProject` (and the project pruning
loop of `listFiles`): keep only keys present in `names`. -/
def mkeep {α : Type} (names : List String) : List (String × α) → List (String × α)
  | [] => []
  | (k, v) :: rest =>
    if names.contains k then (k, v) :: mkeep names rest else mkeep names rest

/-- `_updateProject(project, projectReport)`: reconcile the file map
against the reported file list. -/
def updateProjectFiles (p : TestProject) (files : List String) : TestProject :=
  { p with files := mkeep files (addReportedFiles files p.files) }

/-- The `for (const projectReport of report.projects)` loop of
`listFiles`: fetch-or-create each reported project, then reconcile
its files. -/
def reconcileProjects : List ProjectConfigWithFiles → List (String × TestProject) →
    List (String × TestProject)
  | [], ps => ps
  | r :: rest, ps =>
    let proj := match mget ps r.name with
      | some proj => proj
      | none => freshProject r
    reconcileProjects rest (mset ps r.name (updateProjectFiles proj r.files))

/-- `listFiles()`: on a reported top-level error, return it without
touching any state; otherwise resolve the reported files, record the
last reported project's `testIdAttribute` on the config, reconcile
the project set strictly against the reported names, and fire one
change notification.  Returns (error, new model, number of
`_didUpdate.fire()` calls). -/
def TestModel.listFiles (m : TestModel) (resolve : String → List String)
    (report : ListFilesReport) : Option TestError × TestModel × Nat :=
  match report.error with
  | some e => (some e, m, 0)
  | none =>
    let resolved := report.projects.map (resolveProject resolve)
    let config' := match resolved.getLast? with
      | none => m.config
      | some r => { m.config with testIdAttributeName := r.testIdAttribute }
    let ps := mkeep (resolved.map (fun r => r.name)) (reconcileProjects resolved m.projects)
    (none, { config := config', projects := ps }, 1)

/-- `setProjectEnabled(project, enabled)`, with the project object
reference replaced by its key: set the flag, fire once. -/
def TestModel.setProjectEnabled (m : TestModel) (pname : String) (enabled : Bool) :
    TestModel × Nat :=
  let ps := mmap (fun n p => if n = pname then { p with isEnabled := enabled } else p)
    m.projects
  ({ m with projects := ps }, 1)

/-- The file-suite loop of `_updateProjects` for one project: walk the
project suite's file suites, removing each visited path from the
requested-but-unsatisfied set and replacing the entries of matching
files.  Returns (file map, remaining requested set). -/
def applyFileSuites : List Suite → List (String × TestFile) → List String →
    List (String × TestFile) × List String
  | [], fs, ftd => (fs, ftd)
  | s :: rest, fs, ftd =>
    let ftd' := ftd.filter (fun y => y != s.locationFile)
    let fs' := match mget fs s.locationFile with
      | none => fs
      | some file => mset fs s.locationFile (file.setEntries (entriesOf s))
    applyFileSuites rest fs' ftd'

/-- The trailing loop of `_updateProjects`: every requested path that
received no suite is force-set to the empty entry list (when a file
for it exists). -/
def emptyOutRequested : List String → List (String × TestFile) → List (String × TestFile)
  | [], fs => fs
  | f :: rest, fs =>
    let fs' := match mget fs f with
      | none => fs
      | some tf => mset fs f (tf.setEntries [])
    emptyOutRequested rest fs'

/-- `_updateProjects` restricted to one `[projectName, project]`
entry: find the project's suite by name, apply its file suites, then
empty out the unsatisfied requested paths. -/
def updateProjectEntries (projectSuites : List Suite) (requestedFiles : List String)
    (pname : String) (p : TestProject) : TestProject :=
  let fileSuites := match projectSuites.find? (fun s => s.projectName == pname) with
    | some s => s.suites
    | none => []
  let r := applyFileSuites fileSuites p.files (dedupList requestedFiles)
  { p with files := emptyOutRequested r.2 r.1 }

/-- `_updateProjects(projectSuites, requestedFiles)`: update every
known project and fire one change notification. -/
def TestModel.updateProjects (m : TestModel) (projectSuites : List Suite)
    (requestedFiles : List String) : TestModel × Nat :=
  ({ m with projects := mmap (updateProjectEntries projectSuites requestedFiles) m.projects },
   1)

/-- `listTests(files)`: the collaborator's parsed
`(rootSuite.suites, errors)` response is passed in as `ltResult`;
apply `_updateProjects` and surface the parse errors. -/
def TestModel.listTests (m : TestModel) (ltResult : List Suite × List TestError)
    (files : List String) : List TestError × TestModel × Nat :=
  let r := m.updateProjects ltResult.1 files
  (ltResult.2, r.1, r.2)

/-- The file-suite loop of `_updateFromRunningProject`: skip file
suites with no tests, create missing files, and set entries only on
files that have none yet. -/
def runProjectFiles : List Suite → List (String × TestFile) → List (String × TestFile)
  | [], fs => fs
  | s :: rest, fs =>
    let fs' :=
      if s.allTests.length == 0 then fs
      else match mget fs s.locationFile with
        | some f =>
          if f.entries.isNone then mset fs s.locationFile (f.setEntries (entriesOf s)) else fs
        | none => mset fs s.locationFile ((TestFile.new s.locationFile).setEntries (entriesOf s))
    runProjectFiles rest fs'

/-- `_updateFromRunningProject(project, projectSuite)` without its
trailing fire (counted by the caller). -/
def updateFromRunningProject (p : TestProject) (projectSuite : Suite) : TestProject :=
  { p with files := runProjectFiles projectSuite.suites p.files }

/-- `updateFromRunningProjects(projectSuites)`: for each reported
suite whose project name is known, run
`_updateFromRunningProject` — which fires once at its end; unmatched
suites are skipped without firing. -/
def TestModel.updateFromRunningProjects (m : TestModel) : List Suite → TestModel × Nat
  | [] => (m, 0)
  | s :: rest =>
    match mget m.projects s.projectName with
    | none => m.updateFromRunningProjects rest
    | some p =>
      let m' : TestModel :=
        { m with projects := mset m.projects s.projectName (updateFromRunningProject p s) }
      let r := m'.updateFromRunningProjects rest
      (r.1, r.2 + 1)

/-- `WorkspaceChange`: the three pre-classified filesystem change
sets. -/
structure WorkspaceChange where
  changed : List String
  created : List String
  deleted : List String

/-- `_mapFilesToSources(files)` accumulator: substitute known
source-mapped originals, pass unknown paths through. -/
def mapFilesToSourcesAux (f2s : String → Option (List String)) (acc : List String) :
    List String → List String
  | [] => acc
  | f :: rest =>
    let acc' := match f2s f with
      | some sources => sources.foldl setAdd acc
      | none => setAdd acc f
    mapFilesToSourcesAux f2s acc' rest

/-- `_mapFilesToSources(files)`, with the `_fileToSources` cache
passed in as the lookup `f2s`. -/
def mapFilesToSources (f2s : String → Option (List String)) (files : List String) :
    List String :=
  mapFilesToSourcesAux f2s [] files

/-- The inner deletion loop of `workspaceChanged` for one project:
delete every reported deleted path that has a file, flagging the
model as changed when a deletion happened. -/
def deleteFromProject : List String → TestProject → Bool → TestProject × Bool
  | [], p, ch => (p, ch)
  | f :: rest, p, ch =>
    match mget p.files f with
    | some _ => deleteFromProject rest { p with files := mdel p.files f } true
    | none => deleteFromProject rest p ch

/-- The deletion loop of `workspaceChanged` over all projects. -/
def wcApplyDeleted (deleted : List String) :
    List (String × TestProject) → Bool → List (String × TestProject) × Bool
  | [], ch => ([], ch)
  | (n, p) :: rest, ch =>
    let r := deleteFromProject deleted p ch
    let rr := wcApplyDeleted deleted rest r.2
    ((n, r.1) :: rr.1, rr.2)

/-- Step 2 of `workspaceChanged` (deleted-set handling), guarded by
`change.deleted.size`. -/
def wcDeletedStep (deleted : List String) (m : TestModel) : TestModel × Bool :=
  if deleted.isEmpty then (m, false)
  else
    let r := wcApplyDeleted deleted m.projects false
    ({ m with projects := r.1 }, r.2)

/-- `String.prototype.startsWith` of JS: character-wise prefix
test. -/
def strStartsWith (s pre : String) : Bool :=
  pre.data.isPrefixOf s.data

/-- The created-set prefix test of `workspaceChanged`: some created
path starts with some known project's `testDir`. -/
def wcHasMatchingCreated (created : List String) (ps : List (String × TestProject)) : Bool :=
  ps.any (fun e => created.any (fun f => strStartsWith f e.2.testDir))

/-- Step 3 of `workspaceChanged` (created-set handling): trigger a
full `listFiles` pass when a created path matches a project root.
Returns (model, fires, whether `listFiles` was invoked). -/
def wcCreatedStep (resolve : String → List String) (lfReport : ListFilesReport)
    (created : List String) (m : TestModel) : TestModel × Nat × Bool :=
  if created.isEmpty then (m, 0, false)
  else if wcHasMatchingCreated created m.projects then
    let r := m.listFiles resolve lfReport
    (r.2.1, r.2.2, true)
  else (m, 0, false)

/-- One iteration of the changed-set accumulation of
`workspaceChanged`: a changed path joins the re-parse set only when
its file exists and already has entries
(`if (!testFile || !testFile.entries()) continue`). -/
def collectStep (p : TestProject) (acc : List String) (f : String) : List String :=
  match mget p.files f with
  | none => acc
  | some tf => if tf.entries.isSome then setAdd acc f else acc

/-- The changed-set accumulation of `workspaceChanged` for one
project: collect every changed path whose file exists and already has
entries. -/
def collectFromOne : List String → TestProject → List String → List String
  | [], _, acc => acc
  | f :: rest, p, acc => collectFromOne rest p (collectStep p acc f)

/-- The changed-set accumulation of `workspaceChanged` across all
projects. -/
def collectChanged (changed : List String) :
    List (String × TestProject) → List String → List String
  | [], acc => acc
  | (_, p) :: rest, acc => collectChanged changed rest (collectFromOne changed p acc)

/-- Step 4 of `workspaceChanged` (changed-set handling): accumulate
the re-parse request set and invoke `listTests` once when it is
non-empty.  `ltSuites` is the collaborator's response as a function
of the requested file list.  Returns (model, fires, request passed to
`listTests` if any). -/
def wcChangedStep (ltSuites : List String → List Suite × List TestError)
    (changed : List String) (m : TestModel) : TestModel × Nat × Option (List String) :=
  if changed.isEmpty then (m, 0, none)
  else
    let ftl := collectChanged changed m.projects []
    if ftl.isEmpty then (m, 0, none)
    else
      let r := m.listTests (ltSuites ftl) ftl
      (r.2.1, r.2.2, some ftl)

/-- The observable outcome of one `workspaceChanged` call: the final
model, the total number of `_didUpdate.fire()` calls, and which
collaborator passes were triggered. -/
structure WCResult where
  model : TestModel
  notified : Nat
  listFilesInvoked : Bool
  listTestsRequest : Option (List String)

/-- `workspaceChanged(change)`: translate the three sets through the
source-map index, apply deletions, possibly trigger a full discovery
pass, possibly trigger a targeted re-parse, and fire the end-of-pass
notification whenever the deletion step flagged a structural
change. -/
def TestModel.workspaceChanged (m : TestModel) (f2s : String → Option (List String))
    (resolve : String → List String) (lfReport : ListFilesReport)
    (ltSuites : List String → List Suite × List TestError)
    (change : WorkspaceChange) : WCResult :=
  let changed := mapFilesToSources f2s change.changed
  let created := mapFilesToSources f2s change.created
  let deleted := mapFilesToSources f2s change.deleted
  let r1 := wcDeletedStep deleted m
  let r2 := wcCreatedStep resolve lfReport created r1.1
  let r3 := wcChangedStep ltSuites changed r2.1
  { model := r3.1
    notified := r2.2.1 + r3.2.1 + (if r1.2 then 1 else 0)
    listFilesInvoked := r2.2.2
    listTestsRequest := r3.2.2 }

section OperationLemmas

theorem mcontains_mset_iff {α : Type} {ps : List (String × α)} {k q : String} {v : α}
    (h : mcontains ps k = true) :
    (mget (mset ps k v) q).isSome ↔ (mget ps q).isSome := by
  by_cases hq : q = k
  · subst hq
    have h' : (mget ps q).isSome = true := by simpa [mcontains] using h
    simp [mget_mset_self, h']
  · rw [mget_mset_ne hq]

theorem filter_length_congr {α : Type} {l : List α} {p q : α → Bool}
    (h : ∀ a ∈ l, p a = q a) : (l.filter p).length = (l.filter q).length := by
  rw [List.filter_congr h]

end OperationLemmas

def exConfig : TestConfig :=
  { workspaceFolder := "/w", configFile := "/w/playwright.config.ts",
    cli := "cli.js", version := 1, testIdAttributeName := none }

def exEntryA : TestEntry := TestEntry.caseEntry { title := "a" }

/-- C8: `revision()` is 0 before the first `setEntries` call, and
every `setEntries` call unconditionally increments the revision by
exactly one and replaces the stored sequence, so a file's revision is
monotone and never resets. -/
theorem testFile_revision_contract :
    (∀ f : String, (TestFile.new f).revision = 0 ∧ (TestFile.new f).entries = none) ∧
    (∀ (f : TestFile) (s : List TestEntry),
      (f.setEntries s).revision = f.revision + 1 ∧
      (f.setEntries s).entries = some s ∧
      f.revision ≤ (f.setEntries s).revision) := by
  refine ⟨fun f => ⟨rfl, rfl⟩, fun f s => ⟨rfl, rfl, Nat.le_succ _⟩⟩

/-- C1: when the discovery report carries a top-level error,
`listFiles` returns that error, performs no mutation at all (the
returned model is the input model: same project map, same file maps,
entries, revisions and configuration record) and fires no
notification. -/
theorem listFiles_error_frame (m : TestModel) (resolve : String → List String)
    (report : ListFilesReport) (e : TestError) (h : report.error = some e) :
    m.listFiles resolve report = (some e, m, 0) := by
  unfold TestModel.listFiles
  rw [h]

def exErrModel : TestModel :=
  { config := exConfig,
    projects := [("chromium",
      { name := "chromium", testDir := "/w/tests",
        files := [("/w/tests/a.ts", TestFile.new "/w/tests/a.ts")], isEnabled := true })] }

theorem listFiles_error_frame_witness :
    exErrModel.listFiles (fun f => [f])
        { error := some { message := some "config load failed" }, projects := [] } =
      (some { message := some "config load failed" }, exErrModel, 0) :=
  listFiles_error_frame exErrModel (fun f => [f])
    { error := some { message := some "config load failed" }, projects := [] }
    { message := some "config load failed" } rfl

/-- C10: `setProjectEnabled` sets exactly the named project's enabled
flag and changes nothing else: the configuration is untouched, the
named project keeps its name, test directory and whole file map
(hence every file's entries and revision), every other project entry
is untouched, and no project is created or removed. -/
theorem setProjectEnabled_frame (m : TestModel) (pname : String) (b : Bool)
    (p : TestProject) (h : mget m.projects pname = some p) :
    (m.setProjectEnabled pname b).1.config = m.config ∧
    mget (m.setProjectEnabled pname b).1.projects pname = some { p with isEnabled := b } ∧
    (∀ q, q ≠ pname → mget (m.setProjectEnabled pname b).1.projects q = mget m.projects q) ∧
    (∀ q, (mget (m.setProjectEnabled pname b).1.projects q).isSome ↔
      (mget m.projects q).isSome) := by
  unfold TestModel.setProjectEnabled
  refine ⟨rfl, ?_, ?_, ?_⟩
  · simp [mget_mmap, h]
  · intro q hq
    simp only [mget_mmap]
    cases mget m.projects q <;> simp [hq]
  · intro q
    simp [mget_mmap]

def exEnableModel : TestModel :=
  { config := exConfig,
    projects :=
      [("chromium",
        { name := "chromium", testDir := "/w/tests",
          files := [("/w/tests/a.ts", { file := "/w/tests/a.ts", entries := some [exEntryA], revision := 1 })],
          isEnabled := true }),
       ("firefox",
        { name := "firefox", testDir := "/w/tests", files := [], isEnabled := true })] }

theorem setProjectEnabled_frame_witness :
    (exEnableModel.setProjectEnabled "firefox" false).1.config = exEnableModel.config ∧
    mget (exEnableModel.setProjectEnabled "firefox" false).1.projects "firefox" =
      some { name := "firefox", testDir := "/w/tests", files := [], isEnabled := false } ∧
    (∀ q, q ≠ "firefox" →
      mget (exEnableModel.setProjectEnabled "firefox" false).1.projects q =
        mget exEnableModel.projects q) ∧
    (∀ q, (mget (exEnableModel.setProjectEnabled "firefox" false).1.projects q).isSome ↔
      (mget exEnableModel.projects q).isSome) :=
  setProjectEnabled_frame exEnableModel "firefox" false
    { name := "firefox", testDir := "/w/tests", files := [], isEnabled := true } rfl

/-- C7 (amended): `updateFromRunningProjects` fires one change
notification per reported project suite whose project name matches a
known project — so n fires for n matching suites and none at all
when no reported suite matches. -/
theorem updateFromRunningProjects_notified_count (m : TestModel) (suites : List Suite) :
    (m.updateFromRunningProjects suites).2 =
      (suites.filter (fun s => mcontains m.projects s.projectName)).length := by
  induction suites generalizing m with
  | nil => rfl
  | cons s rest ih =>
    unfold TestModel.updateFromRunningProjects
    cases hg : mget m.projects s.projectName with
    | none =>
      have hc : mcontains m.projects s.projectName = false := by
        simp [mcontains, hg]
      simp only [List.filter_cons, hc, ih]
      simp
    | some p =>
      have hc : mcontains m.projects s.projectName = true := by
        simp [mcontains, hg]
      have hkeys : ∀ s' : Suite,
          mcontains (mset m.projects s.projectName (updateFromRunningProject p s))
              s'.projectName =
            mcontains m.projects s'.projectName := fun s' => mcontains_mset hc
      simp only [List.filter_cons, hc, if_pos]
      rw [ih]
      simp only [List.length_cons]
      congr 1
      exact filter_length_congr (fun a _ => hkeys a)

/-- C7 counterexample: an invocation whose reported project suite
matches no known project fires zero notifications, not exactly
one. -/
theorem updateFromRunningProjects_unmatched_zero_notified :
    (exErrModel.updateFromRunningProjects [Suite.mk "ghost" "" [] []]).2 = 0 := rfl

theorem runProjectFiles_populated_frame {suites : List Suite} {fs : List (String × TestFile)}
    {x : String} {tf : TestFile} (h : mget fs x = some tf) (he : tf.entries.isSome = true) :
    mget (runProjectFiles suites fs) x = some tf := by
  induction suites generalizing fs with
  | nil => simpa [runProjectFiles] using h
  | cons s rest ih =>
    unfold runProjectFiles
    by_cases ht : (s.allTests.length == 0) = true
    · simp only [ht, if_pos]
      exact ih h
    · simp only [ht, if_neg, Bool.false_eq_true, not_false_eq_true, if_false]
      by_cases hx : s.locationFile = x
      · subst hx
        rw [h]
        have hn : tf.entries.isNone = false := by
          cases hh : tf.entries <;> simp_all
        simp only [hn, Bool.false_eq_true, if_false]
        exact ih h
      · cases hg : mget fs s.locationFile with
        | none =>
          exact ih (by rw [mget_mset_ne (Ne.symm hx)]; exact h)
        | some f =>
          by_cases hisn : f.entries.isNone = true
          · simp only [hisn, if_pos]
            exact ih (by rw [mget_mset_ne (Ne.symm hx)]; exact h)
          · simp only [hisn, Bool.false_eq_true, if_false]
            exact ih h

theorem runProjectFiles_isSome_mono {suites : List Suite} {fs : List (String × TestFile)}
    {x : String} (h : (mget fs x).isSome = true) :
    (mget (runProjectFiles suites fs) x).isSome = true := by
  induction suites generalizing fs with
  | nil => simpa [runProjectFiles] using h
  | cons s rest ih =>
    unfold runProjectFiles
    by_cases ht : (s.allTests.length == 0) = true
    · simp only [ht, if_pos]
      exact ih h
    · simp only [ht, Bool.false_eq_true, if_false]
      by_cases hx : s.locationFile = x
      · subst hx
        cases hg : mget fs s.locationFile with
        | none => simp [hg] at h
        | some f =>
          by_cases hisn : f.entries.isNone = true
          · simp only [hg, hisn, if_pos]
            exact ih (by simp [mget_mset_self])
          · simp only [hg, hisn, Bool.false_eq_true, if_false]
            exact ih h
      · cases hg : mget fs s.locationFile with
        | none =>
          exact ih (by rw [mget_mset_ne (Ne.symm hx)]; exact h)
        | some f =>
          by_cases hisn : f.entries.isNone = true
          · simp only [hisn, if_pos]
            exact ih (by rw [mget_mset_ne (Ne.symm hx)]; exact h)
          · simp only [hisn, Bool.false_eq_true, if_false]
            exact ih h

/-- C4: `updateFromRunningProjects` never creates or removes a
project, never removes a file, and leaves every file that already
holds a parsed entry sequence (including a parsed-empty one) entirely
unchanged — entries and revision; so entries are (re)set only on
files whose entries are still undefined. -/
theorem updateFromRunningProjects_frame (suites : List Suite) (m : TestModel) :
    (∀ q, (mget ((m.updateFromRunningProjects suites).1).projects q).isSome ↔
      (mget m.projects q).isSome) ∧
    (∀ q x tf, fileAt m q x = some tf → tf.entries.isSome = true →
      fileAt ((m.updateFromRunningProjects suites).1) q x = some tf) ∧
    (∀ q x, (fileAt m q x).isSome = true →
      (fileAt ((m.updateFromRunningProjects suites).1) q x).isSome = true) := by
  induction suites generalizing m with
  | nil => exact ⟨fun q => Iff.rfl, fun q x tf h _ => h, fun q x h => h⟩
  | cons s rest ih =>
    unfold TestModel.updateFromRunningProjects
    cases hg : mget m.projects s.projectName with
    | none => exact ih m
    | some p =>
      have hc : mcontains m.projects s.projectName = true := by simp [mcontains, hg]
      obtain ⟨ih1, ih2, ih3⟩ := ih
        { m with projects := mset m.projects s.projectName (updateFromRunningProject p s) }
      refine ⟨?_, ?_, ?_⟩
      · intro q
        rw [ih1 q]
        exact mcontains_mset_iff hc
      · intro q x tf hf he
        refine ih2 q x tf ?_ he
        by_cases hq : q = s.projectName
        · subst hq
          unfold fileAt at hf ⊢
          rw [hg] at hf
          simp only [Option.some_bind] at hf
          simp only [mget_mset_self, Option.some_bind, updateFromRunningProject]
          exact runProjectFiles_populated_frame hf he
        · unfold fileAt at hf ⊢
          rw [mget_mset_ne hq]
          exact hf
      · intro q x hf
        refine ih3 q x ?_
        by_cases hq : q = s.projectName
        · subst hq
          unfold fileAt at hf ⊢
          rw [hg] at hf
          simp only [Option.some_bind] at hf
          simp only [mget_mset_self, Option.some_bind, updateFromRunningProject]
          exact runProjectFiles_isSome_mono hf
        · unfold fileAt at hf ⊢
          rw [mget_mset_ne hq]
          exact hf

def exRunModel : TestModel :=
  { config := exConfig,
    projects := [("chromium",
      { name := "chromium", testDir := "/w/tests",
        files := [("/w/tests/a.ts",
          { file := "/w/tests/a.ts", entries := some [exEntryA], revision := 1 })],
        isEnabled := true })] }

def exRunSuites : List Suite :=
  [Suite.mk "chromium" ""
    [Suite.mk "" "/w/tests/a.ts" [] [{ title := "other-1" }, { title := "other-2" }]] []]

theorem updateFromRunningProjects_frame_witness :
    fileAt ((exRunModel.updateFromRunningProjects exRunSuites).1) "chromium" "/w/tests/a.ts" =
      some { file := "/w/tests/a.ts", entries := some [exEntryA], revision := 1 } :=
  (updateFromRunningProjects_frame exRunSuites exRunModel).2.1 "chromium" "/w/tests/a.ts"
    { file := "/w/tests/a.ts", entries := some [exEntryA], revision := 1 } rfl rfl

theorem emptyOutRequested_not_mem {l : List String} {fs : List (String × TestFile)}
    {x : String} (h : x ∉ l) :
    mget (emptyOutRequested l fs) x = mget fs x := by
  induction l generalizing fs with
  | nil => rfl
  | cons f rest ih =>
    have hxf : x ≠ f := fun he => h (he ▸ List.mem_cons_self f rest)
    have hr : x ∉ rest := fun hm => h (List.mem_cons_of_mem f hm)
    unfold emptyOutRequested
    cases hg : mget fs f with
    | none => exact ih hr
    | some tf =>
      rw [ih hr, mget_mset_ne hxf]

theorem emptyOutRequested_mem {l : List String} {fs : List (String × TestFile)}
    {x : String} {tf : TestFile} (hn : l.Nodup) (hx : x ∈ l) (h : mget fs x = some tf) :
    mget (emptyOutRequested l fs) x = some (tf.setEntries []) := by
  induction l generalizing fs with
  | nil => cases hx
  | cons f rest ih =>
    unfold emptyOutRequested
    rcases List.mem_cons.mp hx with he | hr
    · subst he
      rw [h]
      have hout : x ∉ rest := (List.nodup_cons.mp hn).1
      rw [emptyOutRequested_not_mem hout, mget_mset_self]
    · have hxf : x ≠ f := by
        rintro rfl
        exact (List.nodup_cons.mp hn).1 hr
      have hrest : rest.Nodup := (List.nodup_cons.mp hn).2
      cases hg : mget fs f with
      | none => exact ih hrest hr h
      | some tf' =>
        exact ih hrest hr (by rw [mget_mset_ne hxf]; exact h)

theorem applyFileSuites_untouched {suites : List Suite} {fs : List (String × TestFile)}
    {ftd : List String} {x : String} (hs : ∀ s ∈ suites, s.locationFile ≠ x) :
    mget (applyFileSuites suites fs ftd).1 x = mget fs x ∧
    (x ∈ ftd → x ∈ (applyFileSuites suites fs ftd).2) ∧
    (ftd.Nodup → (applyFileSuites suites fs ftd).2.Nodup) := by
  induction suites generalizing fs ftd with
  | nil => exact ⟨rfl, fun h => h, fun h => h⟩
  | cons s rest ih =>
    have hsx : s.locationFile ≠ x := hs s (List.mem_cons_self s rest)
    have hrest : ∀ s' ∈ rest, s'.locationFile ≠ x :=
      fun s' h' => hs s' (List.mem_cons_of_mem s h')
    unfold applyFileSuites
    obtain ⟨ih1, ih2, ih3⟩ := @ih
      (match mget fs s.locationFile with
        | none => fs
        | some file => mset fs s.locationFile (file.setEntries (entriesOf s)))
      (ftd.filter (fun y => y != s.locationFile)) hrest
    refine ⟨?_, ?_, ?_⟩
    · rw [ih1]
      cases hg : mget fs s.locationFile with
      | none => rfl
      | some file => exact mget_mset_ne (fun he => hsx he.symm)
    · intro hx
      apply ih2
      exact List.mem_filter.mpr ⟨hx, by simpa using fun he => hsx he.symm⟩
    · intro hn
      exact ih3 (hn.filter _)

/-- C5: after a `listTests` pass requesting file list `files`, every
known project that has a file for a requested path `x`, but whose
project suite in the discovery result contains no file suite located
at `x`, holds `entries() = []` for that file — the parsed-empty
sequence, not `undefined` and not the previous value. -/
theorem listTests_confirms_empty (m : TestModel) (projectSuites : List Suite)
    (errs : List TestError) (files : List String) (pname x : String)
    (p : TestProject) (tf : TestFile)
    (h1 : mget m.projects pname = some p)
    (h2 : x ∈ files)
    (h3 : mget p.files x = some tf)
    (h4 : ∀ su, projectSuites.find? (fun s => s.projectName == pname) = some su →
      ∀ fs ∈ su.suites, fs.locationFile ≠ x) :
    fileAt ((m.listTests (projectSuites, errs) files).2.1) pname x =
      some (tf.setEntries []) := by
  unfold TestModel.listTests TestModel.updateProjects fileAt
  simp only [mget_mmap, h1, Option.map_some, Option.some_bind]
  unfold updateProjectEntries
  have hxd : x ∈ dedupList files := mem_dedupList.mpr h2
  have hnd : (dedupList files).Nodup := nodup_dedupList
  cases hf : projectSuites.find? (fun s => s.projectName == pname) with
  | none =>
    simp only [hf]
    exact emptyOutRequested_mem hnd hxd h3
  | some su =>
    simp only [hf]
    obtain ⟨a1, a2, a3⟩ :=
      @applyFileSuites_untouched su.suites p.files (dedupList files) x (h4 su hf)
    exact emptyOutRequested_mem (a3 hnd) (a2 hxd) (a1.trans h3)

def exParseModel : TestModel :=
  { config := exConfig,
    projects := [("chromium",
      { name := "chromium", testDir := "/w/tests",
        files := [("/w/tests/a.ts",
          { file := "/w/tests/a.ts", entries := some [exEntryA], revision := 1 })],
        isEnabled := true })] }

theorem listTests_confirms_empty_witness :
    fileAt ((exParseModel.listTests ([], []) ["/w/tests/a.ts"]).2.1)
        "chromium" "/w/tests/a.ts" =
      some ({ file := "/w/tests/a.ts", entries := some [exEntryA],
              revision := 1 : TestFile }.setEntries []) :=
  listTests_confirms_empty exParseModel [] [] ["/w/tests/a.ts"] "chromium" "/w/tests/a.ts"
    { name := "chromium", testDir := "/w/tests",
      files := [("/w/tests/a.ts",
        { file := "/w/tests/a.ts", entries := some [exEntryA], revision := 1 })],
      isEnabled := true }
    { file := "/w/tests/a.ts", entries := some [exEntryA], revision := 1 }
    rfl (List.mem_singleton.mpr rfl) rfl (fun _ hsu => nomatch hsu)

theorem mget_mkeep {α : Type} {names : List String} {ps : List (String × α)} {k : String} :
    mget (mkeep names ps) k = if names.contains k then mget ps k else none := by
  induction ps with
  | nil => simp [mkeep, mget]
  | cons e rest ih =>
    obtain ⟨k', v'⟩ := e
    by_cases hc : k' ∈ names
    · by_cases hk : k' = k
      · subst hk
        simp [mkeep, mget, hc, ih]
      · simp [mkeep, mget, hc, hk, ih]
    · by_cases hk : k' = k
      · subst hk
        simp [mkeep, mget, hc, ih]
      · simp [mkeep, mget, hc, hk, ih]

theorem mget_addReportedFiles_existing {files : List String} {fs : List (String × TestFile)}
    {x : String} {tf : TestFile} (h : mget fs x = some tf) :
    mget (addReportedFiles files fs) x = some tf := by
  induction files generalizing fs with
  | nil => simpa [addReportedFiles] using h
  | cons f rest ih =>
    unfold addReportedFiles
    by_cases hc : mcontains fs f = true
    · rw [if_pos hc]
      exact ih h
    · rw [if_neg hc]
      by_cases hx : f = x
      · subst hx
        exact absurd (by simp [mcontains, h]) hc
      · exact ih (by rw [mget_mset_ne (Ne.symm hx)]; exact h)

theorem mget_addReportedFiles_isSome {files : List String} {fs : List (String × TestFile)}
    {x : String} :
    (mget (addReportedFiles files fs) x).isSome = true ↔
      x ∈ files ∨ (mget fs x).isSome = true := by
  induction files generalizing fs with
  | nil => simp [addReportedFiles]
  | cons f rest ih =>
    unfold addReportedFiles
    by_cases hc : mcontains fs f = true
    · rw [if_pos hc, ih]
      constructor
      · rintro (h | h)
        · exact Or.inl (List.mem_cons_of_mem f h)
        · exact Or.inr h
      · rintro (h | h)
        · rcases List.mem_cons.mp h with rfl | hm
          · exact Or.inr (by simpa [mcontains] using hc)
          · exact Or.inl hm
        · exact Or.inr h
    · rw [if_neg hc, ih]
      constructor
      · rintro (h | h)
        · exact Or.inl (List.mem_cons_of_mem f h)
        · by_cases hx : f = x
          · exact Or.inl (hx ▸ List.mem_cons_self f rest)
          · exact Or.inr (by rwa [mget_mset_ne (Ne.symm hx)] at h)
      · rintro (h | h)
        · rcases List.mem_cons.mp h with rfl | hm
          · exact Or.inr (by simp [mget_mset_self])
          · exact Or.inl hm
        · by_cases hx : f = x
          · subst hx
            exact Or.inr (by simp [mget_mset_self])
          · exact Or.inr (by rw [mget_mset_ne (Ne.symm hx)]; exact h)

theorem mget_addReportedFiles_fresh {files : List String} {fs : List (String × TestFile)}
    {x : String} (h : mget fs x = none) (hx : x ∈ files) :
    mget (addReportedFiles files fs) x = some (TestFile.new x) := by
  induction files generalizing fs with
  | nil => cases hx
  | cons f rest ih =>
    unfold addReportedFiles
    by_cases hfx : f = x
    · subst hfx
      have hc : ¬ (mcontains fs f = true) := by simp [mcontains, h]
      rw [if_neg hc]
      exact mget_addReportedFiles_existing (by simp [mget_mset_self])
    · have hrest : x ∈ rest := by
        rcases List.mem_cons.mp hx with he | hm
        · exact absurd he.symm hfx
        · exact hm
      by_cases hc : mcontains fs f = true
      · rw [if_pos hc]
        exact ih h hrest
      · rw [if_neg hc]
        exact ih (by rw [mget_mset_ne (Ne.symm hfx)]; exact h) hrest

theorem mget_updateProjectFiles_isSome {p : TestProject} {files : List String} {x : String} :
    (mget (updateProjectFiles p files).files x).isSome = true ↔ x ∈ files := by
  unfold updateProjectFiles
  simp only [mget_mkeep]
  by_cases hc : files.contains x = true
  · rw [if_pos hc, mget_addReportedFiles_isSome]
    have hm := contains_iff_mem.mp hc
    simp [hm]
  · rw [if_neg hc]
    simp
    exact fun hm => hc (contains_iff_mem.mpr hm)

theorem mget_updateProjectFiles_fresh {p : TestProject} {files : List String} {x : String}
    (h : mget p.files x = none) (hx : x ∈ files) :
    mget (updateProjectFiles p files).files x = some (TestFile.new x) := by
  unfold updateProjectFiles
  simp only [mget_mkeep]
  rw [if_pos (contains_iff_mem.mpr hx), mget_addReportedFiles_fresh h hx]

theorem updateProjectFiles_isEnabled {p : TestProject} {files : List String} :
    (updateProjectFiles p files).isEnabled = p.isEnabled := rfl

theorem mget_reconcileProjects_isSome {rs : List ProjectConfigWithFiles}
    {ps : List (String × TestProject)} {n : String} :
    (mget (reconcileProjects rs ps) n).isSome = true ↔
      n ∈ rs.map (fun r => r.name) ∨ (mget ps n).isSome = true := by
  induction rs generalizing ps with
  | nil => simp [reconcileProjects]
  | cons r rest ih =>
    simp only [reconcileProjects]
    rw [ih]
    simp only [List.map_cons, List.mem_cons]
    constructor
    · rintro (h | h)
      · exact Or.inl (Or.inr h)
      · by_cases hn : n = r.name
        · exact Or.inl (Or.inl hn)
        · exact Or.inr (by rwa [mget_mset_ne hn] at h)
    · rintro ((h | h) | h)
      · exact Or.inr (by rw [h]; simp [mget_mset_self])
      · exact Or.inl h
      · by_cases hn : n = r.name
        · exact Or.inr (by rw [hn]; simp [mget_mset_self])
        · exact Or.inr (by rw [mget_mset_ne hn]; exact h)

theorem mget_reconcileProjects_not_mentioned {rs : List ProjectConfigWithFiles}
    {ps : List (String × TestProject)} {n : String}
    (h : n ∉ rs.map (fun r => r.name)) :
    mget (reconcileProjects rs ps) n = mget ps n := by
  induction rs generalizing ps with
  | nil => rfl
  | cons r rest ih =>
    simp only [List.map_cons, List.mem_cons] at h
    push_neg at h
    simp only [reconcileProjects]
    rw [ih h.2, mget_mset_ne h.1]

theorem reconcileProjects_enabled {rs : List ProjectConfigWithFiles}
    {ps : List (String × TestProject)} {n : String}
    (h0 : ∀ p, mget ps n = some p → p.isEnabled = true) :
    ∀ p, mget (reconcileProjects rs ps) n = some p → p.isEnabled = true := by
  induction rs generalizing ps with
  | nil => exact h0
  | cons r rest ih =>
    simp only [reconcileProjects]
    cases hv : mget ps r.name with
    | some q =>
      apply ih
      intro p hp
      by_cases hn : n = r.name
      · subst hn
        rw [mget_mset_self] at hp
        injection hp with hp2
        subst hp2
        rw [updateProjectFiles_isEnabled]
        exact h0 q hv
      · rw [mget_mset_ne hn] at hp
        exact h0 p hp
    | none =>
      apply ih
      intro p hp
      by_cases hn : n = r.name
      · subst hn
        rw [mget_mset_self] at hp
        injection hp with hp2
        subst hp2
        rfl
      · rw [mget_mset_ne hn] at hp
        exact h0 p hp

theorem mget_reconcileProjects_nodup_at {rs : List ProjectConfigWithFiles}
    {ps : List (String × TestProject)} {r : ProjectConfigWithFiles}
    (hn : (rs.map (fun r => r.name)).Nodup) (hr : r ∈ rs) :
    mget (reconcileProjects rs ps) r.name =
      some (updateProjectFiles
        (match mget ps r.name with | some p => p | none => freshProject r) r.files) := by
  induction rs generalizing ps with
  | nil => cases hr
  | cons r0 rest ih =>
    have hn0 : (∀ x ∈ rest, ¬ x.name = r0.name) ∧
        (rest.map (fun r => r.name)).Nodup := by
      simpa using hn
    have hnotin : r0.name ∉ rest.map (fun r => r.name) := by
      simpa using hn0.1
    simp only [reconcileProjects]
    rcases List.mem_cons.mp hr with rfl | hmem
    · rw [mget_reconcileProjects_not_mentioned hnotin, mget_mset_self]
    · have hne : r.name ≠ r0.name := hn0.1 r hmem
      rw [ih hn0.2 hmem, mget_mset_ne hne]

theorem resolved_names_eq (resolve : String → List String)
    (rs : List ProjectConfigWithFiles) :
    (rs.map (resolveProject resolve)).map (fun r => r.name) = rs.map (fun r => r.name) := by
  rw [List.map_map]
  rfl

/-- C2: after a successful `listFiles` pass, the set of known project
names equals exactly the set of names in the report; every reported
name that was previously unknown exists afterwards with its enabled
flag defaulted to true, and every previously known name absent from
the report is gone. -/
theorem listFiles_project_reconciliation (m : TestModel) (resolve : String → List String)
    (report : ListFilesReport) (h : report.error = none) :
    (∀ n, (mget ((m.listFiles resolve report).2.1).projects n).isSome = true ↔
      n ∈ report.projects.map (fun r => r.name)) ∧
    (∀ n, n ∈ report.projects.map (fun r => r.name) → mget m.projects n = none →
      ∃ p, mget ((m.listFiles resolve report).2.1).projects n = some p ∧
        p.isEnabled = true) := by
  have hnames := resolved_names_eq resolve report.projects
  simp only [TestModel.listFiles, h]
  constructor
  · intro n
    rw [mget_mkeep]
    by_cases hc : ((report.projects.map (resolveProject resolve)).map
        (fun r => r.name)).contains n = true
    · rw [if_pos hc]
      have hmem : n ∈ report.projects.map (fun r => r.name) := by
        rw [← hnames]
        exact contains_iff_mem.mp hc
      rw [mget_reconcileProjects_isSome]
      simp [hmem, hnames]
    · rw [if_neg hc]
      have hmem : n ∉ report.projects.map (fun r => r.name) := by
        rw [← hnames]
        exact fun hm => hc (contains_iff_mem.mpr hm)
      simp [hmem]
  · intro n hmem h0
    have hc : ((report.projects.map (resolveProject resolve)).map
        (fun r => r.name)).contains n = true := by
      rw [hnames]
      exact contains_iff_mem.mpr hmem
    rw [mget_mkeep, if_pos hc]
    have hsome : (mget (reconcileProjects (report.projects.map (resolveProject resolve))
        m.projects) n).isSome = true := by
      rw [mget_reconcileProjects_isSome, hnames]
      exact Or.inl hmem
    obtain ⟨p, hp⟩ := Option.isSome_iff_exists.mp hsome
    refine ⟨p, hp, ?_⟩
    exact reconcileProjects_enabled (fun q hq => absurd hq (by simp [h0])) p hp

def exProjReport : ProjectConfigWithFiles :=
  { name := "chromium", testDir := "/w/tests", testIdAttribute := some "data-testid",
    files := ["/w/tests/a.spec.ts"] }

def exReport : ListFilesReport := { error := none, projects := [exProjReport] }

def exEmptyModel : TestModel := { config := exConfig, projects := [] }

theorem listFiles_project_reconciliation_witness :
    ((mget ((exEmptyModel.listFiles (fun f => [f]) exReport).2.1).projects
        "chromium").isSome = true ↔
      "chromium" ∈ exReport.projects.map (fun r => r.name)) ∧
    (∃ p, mget ((exEmptyModel.listFiles (fun f => [f]) exReport).2.1).projects
        "chromium" = some p ∧ p.isEnabled = true) := by
  have hth := listFiles_project_reconciliation exEmptyModel (fun f => [f]) exReport rfl
  exact ⟨hth.1 "chromium", hth.2 "chromium" (by simp [exReport, exProjReport]) rfl⟩

/-- C3: after a successful `listFiles` pass (project names assumed
pairwise distinct in the report, as one reconciliation target per
project requires), each reported project's file map holds exactly the
source-map-resolved reported paths: paths that had no file before get
a fresh `TestFile` with undefined entries and revision 0, and paths
not reported are gone. -/
theorem listFiles_file_reconciliation (m : TestModel) (resolve : String → List String)
    (report : ListFilesReport) (h : report.error = none)
    (hn : (report.projects.map (fun r => r.name)).Nodup) :
    ∀ r ∈ report.projects.map (resolveProject resolve),
      ∃ p, mget ((m.listFiles resolve report).2.1).projects r.name = some p ∧
        (∀ x, (mget p.files x).isSome = true ↔ x ∈ r.files) ∧
        (∀ x, x ∈ r.files → fileAt m r.name x = none →
          mget p.files x = some (TestFile.new x)) := by
  intro r hr
  have hn' : ((report.projects.map (resolveProject resolve)).map
      (fun r => r.name)).Nodup := by
    rw [resolved_names_eq]
    exact hn
  have hrecon := @mget_reconcileProjects_nodup_at _ m.projects _ hn' hr
  have hc : ((report.projects.map (resolveProject resolve)).map
      (fun r => r.name)).contains r.name = true :=
    contains_iff_mem.mpr (List.mem_map_of_mem (fun r => r.name) hr)
  simp only [TestModel.listFiles, h]
  refine ⟨updateProjectFiles
    (match mget m.projects r.name with | some p => p | none => freshProject r) r.files,
    ?_, ?_, ?_⟩
  · rw [mget_mkeep, if_pos hc, hrecon]
  · intro x
    exact mget_updateProjectFiles_isSome
  · intro x hx hfa
    apply mget_updateProjectFiles_fresh ?_ hx
    unfold fileAt at hfa
    cases hv : mget m.projects r.name with
    | some q =>
      rw [hv] at hfa
      simp only [Option.some_bind] at hfa
      exact hfa
    | none =>
      rfl

theorem listFiles_file_reconciliation_witness :
    ∃ p, mget ((exEmptyModel.listFiles (fun f => [f]) exReport).2.1).projects
        (resolveProject (fun f => [f]) exProjReport).name = some p ∧
      (∀ x, (mget p.files x).isSome = true ↔
        x ∈ (resolveProject (fun f => [f]) exProjReport).files) ∧
      (∀ x, x ∈ (resolveProject (fun f => [f]) exProjReport).files →
        fileAt exEmptyModel (resolveProject (fun f => [f]) exProjReport).name x = none →
        mget p.files x = some (TestFile.new x)) :=
  listFiles_file_reconciliation exEmptyModel (fun f => [f]) exReport rfl
    (by simp [exReport]) (resolveProject (fun f => [f]) exProjReport)
    (by simp [exReport])

theorem mem_collectStep {p : TestProject} {acc : List String} {f x : String} :
    x ∈ collectStep p acc f ↔
      x ∈ acc ∨ (x = f ∧ ∃ tf, mget p.files f = some tf ∧ tf.entries.isSome = true) := by
  unfold collectStep
  cases hg : mget p.files f with
  | none =>
    show x ∈ acc ↔ _
    simp
  | some tf =>
    show x ∈ (if tf.entries.isSome = true then setAdd acc f else acc) ↔ _
    by_cases he : tf.entries.isSome = true
    · rw [if_pos he, mem_setAdd]
      constructor
      · rintro (h | rfl)
        · exact Or.inl h
        · exact Or.inr ⟨rfl, tf, rfl, he⟩
      · rintro (h | ⟨hxf, tf', htf, he'⟩)
        · exact Or.inl h
        · exact Or.inr hxf
    · rw [if_neg he]
      constructor
      · exact Or.inl
      · rintro (h | ⟨hxf, tf', htf, he'⟩)
        · exact h
        · injection htf with h2
          subst h2
          exact absurd he' he

theorem mem_collectFromOne {changed : List String} {p : TestProject}
    {acc : List String} {x : String} :
    x ∈ collectFromOne changed p acc ↔
      x ∈ acc ∨ (x ∈ changed ∧
        ∃ tf, mget p.files x = some tf ∧ tf.entries.isSome = true) := by
  induction changed generalizing acc with
  | nil => simp [collectFromOne]
  | cons f rest ih =>
    unfold collectFromOne
    rw [ih]
    constructor
    · rintro (h | h)
      · rcases mem_collectStep.mp h with h' | ⟨rfl, tf, htf, he⟩
        · exact Or.inl h'
        · exact Or.inr ⟨List.mem_cons_self x rest, tf, htf, he⟩
      · exact Or.inr ⟨List.mem_cons_of_mem f h.1, h.2⟩
    · rintro (h | ⟨hm, tf, htf, he⟩)
      · exact Or.inl (mem_collectStep.mpr (Or.inl h))
      · rcases List.mem_cons.mp hm with rfl | hm2
        · exact Or.inl (mem_collectStep.mpr (Or.inr ⟨rfl, tf, htf, he⟩))
        · exact Or.inr ⟨hm2, tf, htf, he⟩

theorem mem_collectChanged {changed : List String} {ps : List (String × TestProject)}
    {acc : List String} {x : String} :
    x ∈ collectChanged changed ps acc ↔
      x ∈ acc ∨ (x ∈ changed ∧
        ∃ e ∈ ps, ∃ tf, mget e.2.files x = some tf ∧ tf.entries.isSome = true) := by
  induction ps generalizing acc with
  | nil => simp [collectChanged]
  | cons e rest ih =>
    obtain ⟨n, p⟩ := e
    unfold collectChanged
    rw [ih, mem_collectFromOne]
    constructor
    · rintro ((h | h) | h)
      · exact Or.inl h
      · exact Or.inr ⟨h.1, (n, p), List.mem_cons_self (n, p) rest, h.2⟩
      · obtain ⟨hm, e', he', tf, htf, hes⟩ := h
        exact Or.inr ⟨hm, e', List.mem_cons_of_mem (n, p) he', tf, htf, hes⟩
    · rintro (h | ⟨hm, e', he', tf, htf, hes⟩)
      · exact Or.inl (Or.inl h)
      · rcases List.mem_cons.mp he' with rfl | hm2
        · exact Or.inl (Or.inr ⟨hm, tf, htf, hes⟩)
        · exact Or.inr ⟨hm, e', hm2, tf, htf, hes⟩

/-- C9: in `workspaceChanged`, the targeted re-parse request set
handed to `listTests` is exactly the translated changed paths that
have, in some project of the scan-time model state, an existing file
with already-parsed entries — so a changed path that has no file in a
given project, or whose file is still unparsed
(`entries() === undefined`), is never contributed by that project —
and `listTests` is invoked only when that accumulated set is
non-empty. -/
theorem workspaceChanged_request_set (m : TestModel)
    (f2s : String → Option (List String)) (resolve : String → List String)
    (lfReport : ListFilesReport)
    (ltSuites : List String → List Suite × List TestError)
    (change : WorkspaceChange) :
    ((m.workspaceChanged f2s resolve lfReport ltSuites change).listTestsRequest =
      (wcChangedStep ltSuites (mapFilesToSources f2s change.changed)
        (wcCreatedStep resolve lfReport (mapFilesToSources f2s change.created)
          (wcDeletedStep (mapFilesToSources f2s change.deleted) m).1).1).2.2) ∧
    (∀ (mi : TestModel) (fs : List String),
      (wcChangedStep ltSuites (mapFilesToSources f2s change.changed) mi).2.2 = some fs →
      fs ≠ [] ∧ ∀ x, x ∈ fs ↔
        (x ∈ mapFilesToSources f2s change.changed ∧
          ∃ e ∈ mi.projects, ∃ tf, mget e.2.files x = some tf ∧
            tf.entries.isSome = true)) := by
  constructor
  · rfl
  · intro mi fs hreq
    unfold wcChangedStep at hreq
    by_cases h1 : (mapFilesToSources f2s change.changed).isEmpty = true
    · rw [if_pos h1] at hreq
      cases hreq
    · rw [if_neg h1] at hreq
      by_cases h2 : (collectChanged (mapFilesToSources f2s change.changed)
          mi.projects []).isEmpty = true
      · rw [if_pos h2] at hreq
        cases hreq
      · rw [if_neg h2] at hreq
        injection hreq with hreq2
        subst hreq2
        refine ⟨fun he => h2 (by simp [he]), fun x => ?_⟩
        rw [mem_collectChanged]
        simp

def exWcModel : TestModel :=
  { config := exConfig,
    projects := [("chromium",
      { name := "chromium", testDir := "/w/tests",
        files := [("/w/tests/a.ts",
          { file := "/w/tests/a.ts", entries := some [exEntryA], revision := 1 }),
          ("/w/tests/b.ts", TestFile.new "/w/tests/b.ts")],
        isEnabled := true })] }

theorem workspaceChanged_request_set_witness :
    ["/w/tests/a.ts"] ≠ [] ∧ ∀ x, x ∈ ["/w/tests/a.ts"] ↔
      (x ∈ mapFilesToSources (fun _ => none) ["/w/tests/a.ts", "/w/tests/b.ts"] ∧
        ∃ e ∈ exWcModel.projects, ∃ tf, mget e.2.files x = some tf ∧
          tf.entries.isSome = true) :=
  (workspaceChanged_request_set exWcModel (fun _ => none) (fun f => [f])
      { error := none, projects := [] } (fun _ => ([], []))
      { changed := ["/w/tests/a.ts", "/w/tests/b.ts"], created := [], deleted := [] }).2
    exWcModel ["/w/tests/a.ts"] rfl

theorem deleteFromProject_flag {deleted : List String} {p : TestProject} {ch : Bool} :
    (deleteFromProject deleted p ch).2 = true ↔
      ch = true ∨ ∃ f ∈ deleted, (mget p.files f).isSome = true := by
  induction deleted generalizing p ch with
  | nil => simp [deleteFromProject]
  | cons f rest ih =>
    unfold deleteFromProject
    cases hg : mget p.files f with
    | none =>
      rw [ih]
      constructor
      · rintro (h | ⟨f', hf', hs⟩)
        · exact Or.inl h
        · exact Or.inr ⟨f', List.mem_cons_of_mem f hf', hs⟩
      · rintro (h | ⟨f', hf', hs⟩)
        · exact Or.inl h
        · rcases List.mem_cons.mp hf' with rfl | hm
          · exact absurd hs (by simp [hg])
          · exact Or.inr ⟨f', hm, hs⟩
    | some tf =>
      rw [ih]
      constructor
      · intro h
        exact Or.inr ⟨f, List.mem_cons_self f rest, by simp [hg]⟩
      · intro h
        exact Or.inl rfl

theorem wcApplyDeleted_flag {deleted : List String} {ps : List (String × TestProject)}
    {ch : Bool} :
    (wcApplyDeleted deleted ps ch).2 = true ↔
      ch = true ∨ ∃ e ∈ ps, ∃ f ∈ deleted, (mget e.2.files f).isSome = true := by
  induction ps generalizing ch with
  | nil => simp [wcApplyDeleted]
  | cons e rest ih =>
    obtain ⟨n, p⟩ := e
    unfold wcApplyDeleted
    rw [ih, deleteFromProject_flag]
    constructor
    · rintro ((h | h) | h)
      · exact Or.inl h
      · exact Or.inr ⟨(n, p), List.mem_cons_self (n, p) rest, h⟩
      · obtain ⟨e', he', hf⟩ := h
        exact Or.inr ⟨e', List.mem_cons_of_mem (n, p) he', hf⟩
    · rintro (h | ⟨e', he', hf⟩)
      · exact Or.inl (Or.inl h)
      · rcases List.mem_cons.mp he' with rfl | hm
        · exact Or.inl (Or.inr hf)
        · exact Or.inr ⟨e', hm, hf⟩

theorem wcDeletedStep_flag {deleted : List String} {m : TestModel} :
    (wcDeletedStep deleted m).2 = true ↔
      ∃ e ∈ m.projects, ∃ f ∈ deleted, (mget e.2.files f).isSome = true := by
  unfold wcDeletedStep
  by_cases h : deleted.isEmpty = true
  · rw [if_pos h]
    have hd : deleted = [] := List.isEmpty_iff.mp h
    subst hd
    simp
  · rw [if_neg h]
    rw [wcApplyDeleted_flag]
    simp

/-- C6 (amended): within one `workspaceChanged` pass, structural
deletions across any number of projects and files coalesce into at
most one end-of-pass notification, fired exactly when some deletion
removed a file; but that notification is not suppressed when a
triggered `listFiles` or `listTests` pass already fired its own, so
the total fired in the pass is the sum of the triggered passes' fires
plus the deletion fire. -/
theorem workspaceChanged_notification_decomposition (m : TestModel)
    (f2s : String → Option (List String)) (resolve : String → List String)
    (lfReport : ListFilesReport)
    (ltSuites : List String → List Suite × List TestError)
    (change : WorkspaceChange) :
    ((m.workspaceChanged f2s resolve lfReport ltSuites change).notified =
      (wcCreatedStep resolve lfReport (mapFilesToSources f2s change.created)
        (wcDeletedStep (mapFilesToSources f2s change.deleted) m).1).2.1 +
      (wcChangedStep ltSuites (mapFilesToSources f2s change.changed)
        (wcCreatedStep resolve lfReport (mapFilesToSources f2s change.created)
          (wcDeletedStep (mapFilesToSources f2s change.deleted) m).1).1).2.1 +
      (if (wcDeletedStep (mapFilesToSources f2s change.deleted) m).2 then 1 else 0)) ∧
    ((if (wcDeletedStep (mapFilesToSources f2s change.deleted) m).2 then 1 else 0) ≤ 1) ∧
    ((wcDeletedStep (mapFilesToSources f2s change.deleted) m).2 = true ↔
      ∃ e ∈ m.projects, ∃ f ∈ mapFilesToSources f2s change.deleted,
        (mget e.2.files f).isSome = true) := by
  refine ⟨rfl, ?_, wcDeletedStep_flag⟩
  by_cases h : (wcDeletedStep (mapFilesToSources f2s change.deleted) m).2 = true
  · rw [if_pos h]
  · rw [if_neg h]
    exact Nat.zero_le 1

/-- C6 counterexample: a single `workspaceChanged` call that deletes
a known file and also creates a file under a project root fires two
notifications — one from the triggered `listFiles` pass and the
end-of-pass deletion notification — exceeding the claimed total of at
most one, because the deletion notification is not suppressed. -/
theorem workspaceChanged_two_notified :
    (exWcModel.workspaceChanged (fun _ => none) (fun f => [f])
      { error := none, projects := [exProjReport] } (fun _ => ([], []))
      { changed := [], created := ["/w/tests/new.ts"],
        deleted := ["/w/tests/a.ts"] }).notified = 2 := by
  decide
